import Mathlib

/-!
Verification of `split_ical.py`: a tool that parses an iCalendar document
into header lines, timezone blocks and event blocks, and splits it into
output files (one per event, or size-bounded chunks).

Strings are modelled by Lean `String`; the Python string primitives used by
the source (`str.strip`, `str.startswith`, `str.splitlines`,
`str.partition`, `"\n".join`, `len(s.encode("utf-8"))`) are embedded as
executable char-list functions below (`pyStrip`, `pyStartsWith`,
`splitLines`, `afterFirstColon`, `njoin`, `String.utf8ByteSize`).
Filesystem effects of the orchestration layer are modelled explicitly as a
list of `FsAction` values in the order the source performs them.
-/

namespace SplitIcal

/-- ASCII whitespace as stripped by Python `str.strip()`. -/
def isPySpace (c : Char) : Bool :=
  c = ' ' || c = '\t' || c = '\n' || c = '\r' || c = '\x0b' || c = '\x0c'

/-- Embedding of Python `str.strip()` (restricted to ASCII whitespace). -/
def pyStrip (s : String) : String :=
  ⟨((s.data.dropWhile isPySpace).reverse.dropWhile isPySpace).reverse⟩

/-- Embedding of Python `s.startswith(p)`. -/
def pyStartsWith (s p : String) : Bool :=
  p.data.isPrefixOf s.data

/-- The part of the char list after the first `':'`; `[]` when there is no
colon.  This is Python `s.partition(":")[2]`, and also
`s.split(":", 1)[1]` whenever a colon is present. -/
def afterFirstColon : List Char → List Char
  | [] => []
  | c :: cs => if c = ':' then cs else afterFirstColon cs

/-- Embedding of Python `str.splitlines()` on char lists, for the line
terminators `"\n"`, `"\r\n"` and `"\r"`. -/
def splitLinesList : List Char → List (List Char)
  | [] => []
  | c :: cs =>
    if c = '\n' then [] :: splitLinesList cs
    else if c = '\r' then
      if cs.head? = some '\n' then splitLinesList cs
      else [] :: splitLinesList cs
    else
      match splitLinesList cs with
      | [] => [[c]]
      | l :: ls => (c :: l) :: ls

/-- Embedding of Python `content.splitlines()`. -/
def splitLines (s : String) : List String :=
  (splitLinesList s.data).map fun l => ⟨l⟩

/-- Embedding of Python `"\n".join(parts)`. -/
def njoin : List String → String
  | [] => ""
  | [p] => p
  | p :: ps => p ++ "\n" ++ njoin ps

/-- An event record as produced by `parse_ical`: the verbatim block text and
the three extracted properties. -/
structure Event where
  text : String
  summary : String
  uid : String
  dtstart : String
deriving Repr, DecidableEq

/-- The parse result: header lines, timezone block texts, event records. -/
structure Document where
  header_lines : List String
  timezones : List String
  events : List Event
deriving Repr, DecidableEq

/-- Embedding of `_extract_property`, scanning the lines of a block for the
first one starting with `"<name>:"` or `"<name>;"` and returning the
(stripped) part after the first colon. -/
def extractPropLines (propName : String) : List String → String
  | [] => ""
  | l :: ls =>
    if pyStartsWith l (propName ++ ":") || pyStartsWith l (propName ++ ";") then
      pyStrip ⟨afterFirstColon l.data⟩
    else
      extractPropLines propName ls

def _extract_property (block : String) (propName : String) : String :=
  extractPropLines propName (splitLines block)

/-- The mutable state of the `parse_ical` loop. -/
structure ParseState where
  header_lines : List String
  timezones : List String
  events : List Event
  current_block : List String
  block_type : Option String
  nesting : Int
deriving Repr, DecidableEq

def initState : ParseState :=
  { header_lines := [], timezones := [], events := [],
    current_block := [], block_type := none, nesting := 0 }

/-- Build the `Event` record flushed when a `VEVENT` block closes. -/
def mkEvent (block_text : String) : Event :=
  { text := block_text,
    summary := _extract_property block_text "SUMMARY",
    uid := _extract_property block_text "UID",
    dtstart := _extract_property block_text "DTSTART" }

/-- The flush performed when nesting returns to 0: classify the block by its
type tag and append it to the matching sequence (anything that is neither a
timezone nor an event is dropped). -/
def closeBlock (s : ParseState) (bt : String) (cb : List String) : ParseState :=
  let block_text := njoin cb
  if bt = "VTIMEZONE" then
    { s with timezones := s.timezones ++ [block_text],
             block_type := none, current_block := [], nesting := 0 }
  else if bt = "VEVENT" then
    { s with events := s.events ++ [mkEvent block_text],
             block_type := none, current_block := [], nesting := 0 }
  else
    { s with block_type := none, current_block := [], nesting := 0 }

/-- One iteration of the `parse_ical` loop body on a single line. -/
def stepLine (s : ParseState) (line : String) : ParseState :=
  let stripped := pyStrip line
  if stripped = "BEGIN:VCALENDAR" ∨ stripped = "END:VCALENDAR" then
    s
  else
    match s.block_type with
    | none =>
      if pyStartsWith stripped "BEGIN:" then
        { s with block_type := some ⟨afterFirstColon stripped.data⟩,
                 current_block := [line], nesting := 1 }
      else if stripped ≠ "" then
        { s with header_lines := s.header_lines ++ [line] }
      else
        s
    | some bt =>
      let cb := s.current_block ++ [line]
      let n : Int :=
        if pyStartsWith stripped "BEGIN:" then s.nesting + 1
        else if pyStartsWith stripped "END:" then s.nesting - 1
        else s.nesting
      if n = 0 then closeBlock s bt cb
      else { s with current_block := cb, nesting := n }

/-- Run the parse loop over a list of lines. -/
def parseLines (ls : List String) : ParseState :=
  ls.foldl stepLine initState

/-- The `Document` extracted from the final loop state (a dangling open
block is simply not flushed). -/
def docOf (s : ParseState) : Document :=
  { header_lines := s.header_lines, timezones := s.timezones, events := s.events }

/-- Embedding of `parse_ical`. -/
def parse_ical (content : String) : Document :=
  docOf (parseLines (splitLines content))

/-- Embedding of `build_ics`: `"\n".join(parts) + "\n"`. -/
def build_ics (header_lines timezones event_texts : List String) : String :=
  njoin (["BEGIN:VCALENDAR"] ++ header_lines ++ timezones ++ event_texts
          ++ ["END:VCALENDAR"]) ++ "\n"

/-- Embedding of `_calc_skeleton_size`. -/
def _calc_skeleton_size (header_lines timezones : List String) : Nat :=
  (build_ics header_lines timezones []).utf8ByteSize

/-- `len(event["text"].encode("utf-8")) + 1`: the cost of an event inside a
chunk (its text plus the joining newline). -/
def eventBytes (t : String) : Nat :=
  t.utf8ByteSize + 1

/-- A warning printed by the oversized-single-event branch: the event's
summary, its size with skeleton overhead, and the requested limit. -/
structure Warning where
  summary : String
  size : Nat
  limit : Nat
deriving Repr, DecidableEq

/-- The mutable state of the `_split_by_size` loop: flushed chunks (each the
`event_texts` handed to `_flush_chunk`, in flush order), warnings printed so
far, and the current accumulator with its tracked size. -/
structure SizeAcc where
  chunks : List (List String)
  warnings : List Warning
  current_events : List String
  current_size : Nat
deriving Repr, DecidableEq

/-- One iteration of the `_split_by_size` loop body on a single event. -/
def stepEvent (skel maxB : Nat) (a : SizeAcc) (ev : Event) : SizeAcc :=
  let eb := eventBytes ev.text
  let projected := a.current_size + eb
  if maxB < eb + skel then
    let a1 :=
      if a.current_events = [] then a
      else { a with chunks := a.chunks ++ [a.current_events],
                    current_events := [], current_size := skel }
    { a1 with warnings := a1.warnings ++ [⟨ev.summary, eb + skel, maxB⟩],
              chunks := a1.chunks ++ [[ev.text]] }
  else if maxB < projected ∧ a.current_events ≠ [] then
    { a with chunks := a.chunks ++ [a.current_events],
             current_events := [ev.text], current_size := skel + eb }
  else
    { a with current_events := a.current_events ++ [ev.text],
             current_size := a.current_size + eb }

/-- The whole `_split_by_size` loop, including the final flush of a
non-empty accumulator: the produced chunks (event-text lists in flush
order) and the warnings. -/
def splitBySizeRun (d : Document) (maxB : Nat) : SizeAcc :=
  let skel := _calc_skeleton_size d.header_lines d.timezones
  let a := d.events.foldl (stepEvent skel maxB)
    { chunks := [], warnings := [], current_events := [], current_size := skel }
  if a.current_events = [] then a
  else { a with chunks := a.chunks ++ [a.current_events] }

/-- Characters removed by `sanitize_filename` (the regex `[<>:"/\\|?*]`). -/
def illegalChars : List Char :=
  ['<', '>', ':', '"', '/', '\\', '|', '?', '*']

/-- Embedding of `re.sub(r"_+", "_", s)`: collapse each maximal run of
underscores to a single underscore (all but the last one of a run are
dropped). -/
def collapseUnd : List Char → List Char
  | [] => []
  | c :: rest =>
    if c = '_' ∧ rest.head? = some '_' then collapseUnd rest
    else c :: collapseUnd rest

/-- Embedding of Python `s.strip("_")`. -/
def stripUnd (l : List Char) : List Char :=
  ((l.dropWhile (fun c => c == '_')).reverse.dropWhile (fun c => c == '_')).reverse

/-- Embedding of `sanitize_filename`: remove filesystem-illegal characters,
spaces to underscores, collapse repeated underscores, trim underscores at
both ends, and fall back to `"untitled"` when the result is empty. -/
def sanitize_filename (name : String) : String :=
  let s1 := name.data.filter (fun c => !(illegalChars.contains c))
  let s2 := s1.map (fun c => if c = ' ' then '_' else c)
  let s3 := collapseUnd s2
  let s4 := stripUnd s3
  if s4 = [] then "untitled" else ⟨s4⟩

/-- Python `f"{idx:03d}"`: zero-pad to at least three digits. -/
def pad3 (n : Nat) : String :=
  if n < 10 then "00" ++ toString n
  else if n < 100 then "0" ++ toString n
  else toString n

/-- A filesystem effect performed by `split_ical`. -/
inductive FsAction where
  | mkdirAll (dir : String)
  | writeFile (path : String) (content : String)
deriving Repr, DecidableEq

/-- The `(path, content)` pairs written by `_split_per_event`, in order,
starting at index `idx`. -/
def perEventFiles (outDir pfx : String) (hdr tz : List String) :
    Nat → List Event → List (String × String)
  | _, [] => []
  | idx, ev :: rest =>
    let summaryPart := if ev.summary = "" then "event" else sanitize_filename ev.summary
    let filename :=
      (if pfx = "" then "" else pfx ++ "_") ++ pad3 idx ++ "_" ++ summaryPart ++ ".ics"
    (outDir ++ "/" ++ filename, build_ics hdr tz [ev.text])
      :: perEventFiles outDir pfx hdr tz (idx + 1) rest

/-- The `(path, content)` pairs written by the `_flush_chunk` calls of
`_split_by_size`, in flush order, starting at chunk index `idx`. -/
def bySizeFiles (outDir pfx : String) (hdr tz : List String) :
    Nat → List (List String) → List (String × String)
  | _, [] => []
  | idx, c :: rest =>
    let tag := if pfx = "" then "part" else pfx
    let filename := tag ++ "_" ++ pad3 idx ++ ".ics"
    (outDir ++ "/" ++ filename, build_ics hdr tz c)
      :: bySizeFiles outDir pfx hdr tz (idx + 1) rest

/-- Embedding of `split_ical` (the orchestration layer), with the input
file's text passed directly (reading it, and the input-existence check, are
I/O outside the model).  Returns the list of created file paths and the
filesystem actions performed, in order. -/
def splitIcalRun (content outDir pfx : String) (maxSizeBytes : Nat) :
    List String × List FsAction :=
  let parsed := parse_ical content
  if parsed.events = [] then ([], [])
  else
    let files :=
      if 0 < maxSizeBytes then
        bySizeFiles outDir pfx parsed.header_lines parsed.timezones 1
          (splitBySizeRun parsed maxSizeBytes).chunks
      else
        perEventFiles outDir pfx parsed.header_lines parsed.timezones 1 parsed.events
    (files.map (·.1),
     FsAction.mkdirAll outDir :: files.map (fun f => FsAction.writeFile f.1 f.2))

/-! ## Derived notions used by the verification -/

/-- UTF-8 byte length of a char list. -/
def utf8Len (l : List Char) : Nat :=
  (l.map Char.utf8Size).sum

/-- Per-part cost of the serialized document: each part plus its newline. -/
def partsSize (ps : List String) : Nat :=
  (ps.map (fun p => p.utf8ByteSize + 1)).sum

/-- A chunk satisfies the nominal size bound (expressed through the tracked
arithmetic `skel + Σ eventBytes`) whenever its first event, with skeleton
overhead, fits the limit. -/
def ChunkOk (skel maxB : Nat) (c : List String) : Prop :=
  ∀ t0, c.head? = some t0 →
    eventBytes t0 + skel ≤ maxB →
    skel + (c.map eventBytes).sum ≤ maxB

/-- Invariant maintained by every iteration of the size-split loop. -/
def AccInv (skel maxB : Nat) (a : SizeAcc) : Prop :=
  a.current_size = skel + (a.current_events.map eventBytes).sum
  ∧ (a.current_events ≠ [] → a.current_size ≤ maxB)
  ∧ (∀ c ∈ a.chunks, ChunkOk skel maxB c)

/-- The events seen so far, as recorded in the accumulator state. -/
def accJoin (a : SizeAcc) : List String :=
  a.chunks.flatten ++ a.current_events

/-- `True` on the two top-level container tag lines skipped by the parser. -/
def isCalTag (line : String) : Bool :=
  pyStrip line == "BEGIN:VCALENDAR" || pyStrip line == "END:VCALENDAR"

/-- The stripped line starts a block tag. -/
def beginsB (line : String) : Bool :=
  pyStartsWith (pyStrip line) "BEGIN:"

/-- The stripped line closes a block tag. -/
def endsB (line : String) : Bool :=
  pyStartsWith (pyStrip line) "END:"

/-- Effect of one in-block line on the nesting counter (container tag lines
are skipped before the counter is consulted, hence contribute `0`). -/
def lineDelta (line : String) : Int :=
  if isCalTag line then 0
  else if beginsB line then 1
  else if endsB line then -1
  else 0

def nonCalTag (line : String) : Bool :=
  !(isCalTag line)

def deltaSum (ls : List String) : Int :=
  (ls.map lineDelta).sum

/-- Starting from nesting `k`, the nesting returns to `0` exactly on the
last line of `ls` and not before. -/
def closesWhole (k : Int) : List String → Bool
  | [] => false
  | [l] => k + lineDelta l == 0
  | l :: ls => (k + lineDelta l != 0) && closesWhole (k + lineDelta l) ls

/-- Starting from nesting `k`, the nesting never returns to `0` while
processing `ls`. -/
def neverCloses (k : Int) : List String → Bool
  | [] => true
  | l :: ls => (k + lineDelta l != 0) && neverCloses (k + lineDelta l) ls

/-- A line the parser records in `header_lines`: non-blank, outside any
block, not a container tag line, and not an opening tag. -/
def headerLineB (line : String) : Bool :=
  (pyStrip line != "") && !(isCalTag line) && !(beginsB line)

/-- `line` opens a block whose type tag is `bt`. -/
def opensB (line : String) (bt : String) : Bool :=
  !(isCalTag line) && beginsB line
    && (bt == (⟨afterFirstColon (pyStrip line).data⟩ : String))

/-- A complete top-level block: an opening tag line for `bt` followed by a
body whose nesting stays positive until the very last line closes it. -/
def goodBlockB (bt : String) : List String → Bool
  | [] => false
  | op :: body => opensB op bt && closesWhole 1 body

/-- The lines of a block the parser actually accumulates (container tag
lines are skipped even inside a block). -/
def blockLines (block : List String) : List String :=
  block.filter nonCalTag

/-- The block text flushed for a completed block. -/
def mkBlockText (block : List String) : String :=
  njoin (blockLines block)

/-- The event record flushed for a completed `VEVENT` block. -/
def mkEventFromBlock (block : List String) : Event :=
  mkEvent (mkBlockText block)

/-- The line contains no line terminator (true of every line produced by
`splitLines`). -/
def noNL (line : String) : Bool :=
  line.data.all (fun c => c != '\n' && c != '\r')

/-- `"".join(l ++ "\n" for l in ls)`: the canonical serialized form of a
line sequence; `build_ics` output has this shape. -/
def joinNl : List String → String
  | [] => ""
  | l :: ls => l ++ "\n" ++ joinNl ls

/-- Completeness invariant of the parse loop, relating the loop state to
the list of lines consumed so far: every header line is a recorded input
line; every timezone text and event record comes from a complete top-level
block of the input; and the in-progress block, when one is open, is the
accumulation of a trailing well-formed-so-far block. -/
def StateInv (ls : List String) (s : ParseState) : Prop :=
  (∀ l ∈ s.header_lines, headerLineB l = true ∧ l ∈ ls)
  ∧ (∀ t ∈ s.timezones, ∃ pre block post, ls = pre ++ block ++ post
      ∧ goodBlockB "VTIMEZONE" block = true ∧ t = mkBlockText block)
  ∧ (∀ e ∈ s.events, ∃ pre block post, ls = pre ++ block ++ post
      ∧ goodBlockB "VEVENT" block = true ∧ e = mkEventFromBlock block)
  ∧ (match s.block_type with
     | none => s.current_block = [] ∧ s.nesting = 0
     | some bt => ∃ pre op body, ls = pre ++ op :: body
        ∧ opensB op bt = true
        ∧ neverCloses 1 body = true
        ∧ s.current_block = blockLines (op :: body)
        ∧ s.nesting = 1 + deltaSum body)

/-- Two adjacent characters are not both underscores. -/
def undPair (a b : Char) : Prop :=
  ¬(a = '_' ∧ b = '_')

/-! ## Byte-size arithmetic for `build_ics` -/

theorem utf8ByteSize_go_eq (l : List Char) :
    String.utf8ByteSize.go l = utf8Len l := by
  induction l with
  | nil => rfl
  | cons c cs ih =>
    simp [String.utf8ByteSize.go, utf8Len, ih, Nat.add_comm]
    simp [utf8Len] at ih
    omega

theorem utf8ByteSize_data (s : String) : s.utf8ByteSize = utf8Len s.data := by
  cases s with
  | mk l => simpa [String.utf8ByteSize] using utf8ByteSize_go_eq l

theorem utf8ByteSize_append (s t : String) :
    (s ++ t).utf8ByteSize = s.utf8ByteSize + t.utf8ByteSize := by
  simp [utf8ByteSize_data, String.data_append, utf8Len]

theorem njoin_size (p : String) (ps : List String) :
    (njoin (p :: ps)).utf8ByteSize + 1 = partsSize (p :: ps) := by
  induction ps generalizing p with
  | nil => simp [njoin, partsSize]
  | cons q rest ih =>
    have h2 : njoin (p :: q :: rest) = p ++ "\n" ++ njoin (q :: rest) := rfl
    have hn : ("\n" : String).utf8ByteSize = 1 := rfl
    rw [h2, utf8ByteSize_append, utf8ByteSize_append, hn]
    have := ih q
    simp only [partsSize, List.map_cons, List.sum_cons] at *
    omega

theorem build_ics_size (hdr tz evts : List String) :
    (build_ics hdr tz evts).utf8ByteSize
      = partsSize (["BEGIN:VCALENDAR"] ++ hdr ++ tz ++ evts ++ ["END:VCALENDAR"]) := by
  unfold build_ics
  rw [utf8ByteSize_append]
  have hn : ("\n" : String).utf8ByteSize = 1 := rfl
  rw [hn]
  exact njoin_size _ _

/-- The exact size decomposition: a chunk's serialized size is the skeleton
size plus the per-event costs. -/
theorem build_ics_skeleton_sum (hdr tz evts : List String) :
    (build_ics hdr tz evts).utf8ByteSize
      = _calc_skeleton_size hdr tz + (evts.map eventBytes).sum := by
  have he : eventBytes = fun p => p.utf8ByteSize + 1 := rfl
  unfold _calc_skeleton_size
  rw [build_ics_size, build_ics_size, he]
  simp only [partsSize, List.map_append, List.sum_append, List.map_nil,
    List.sum_nil, List.map_cons, List.sum_cons]
  omega

/-! ## Invariants of the `_split_by_size` loop -/

theorem stepEvent_inv (skel maxB : Nat) (a : SizeAcc) (ev : Event)
    (h : AccInv skel maxB a) :
    AccInv skel maxB (stepEvent skel maxB a ev) := by
  obtain ⟨hsz, hle, hch⟩ := h
  have hcur : ChunkOk skel maxB a.current_events := by
    intro t0 ht0 _
    have hne : a.current_events ≠ [] := by
      intro h0
      rw [h0] at ht0
      simp at ht0
    have := hle hne
    omega
  unfold stepEvent
  simp only
  split
  · next hover =>
    split
    · next hemp =>
      refine ⟨by simp [hsz, hemp], by simp [hemp], ?_⟩
      intro c hc
      simp only [List.mem_append, List.mem_singleton] at hc
      rcases hc with hc | hc
      · exact hch c hc
      · subst hc
        intro t0 ht0 hfit
        simp only [List.head?, Option.some.injEq] at ht0
        subst ht0
        omega
    · next hemp =>
      refine ⟨by simp, by simp, ?_⟩
      intro c hc
      simp only [List.mem_append, List.mem_singleton] at hc
      rcases hc with (hc | hc) | hc
      · exact hch c hc
      · subst hc; exact hcur
      · subst hc
        intro t0 ht0 hfit
        simp only [List.head?, Option.some.injEq] at ht0
        subst ht0
        omega
  · next hover =>
    split
    · next hproj =>
      obtain ⟨hgt, hemp⟩ := hproj
      refine ⟨by simp [eventBytes], ?_, ?_⟩
      · intro _
        simp only [eventBytes] at *
        omega
      · intro c hc
        simp only [List.mem_append, List.mem_singleton] at hc
        rcases hc with hc | hc
        · exact hch c hc
        · subst hc; exact hcur
    · next hproj =>
      rw [Decidable.not_and_iff_or_not] at hproj
      constructor
      · simp only [List.map_append, List.sum_append, List.map_cons, List.map_nil,
          List.sum_cons, List.sum_nil]
        omega
      refine ⟨?_, hch⟩
      intro _
      simp only
      rcases hproj with hp | hp
      · omega
      · simp only [ne_eq, not_not] at hp
        rw [hp] at hsz
        simp only [List.map_nil, List.sum_nil, Nat.add_zero] at hsz
        omega

theorem stepEvent_join (skel maxB : Nat) (a : SizeAcc) (ev : Event) :
    accJoin (stepEvent skel maxB a ev) = accJoin a ++ [ev.text] := by
  unfold stepEvent accJoin
  simp only
  split
  · split
    · next hemp => simp [hemp]
    · simp
  · split <;> simp

theorem foldl_stepEvent_inv (skel maxB : Nat) (evts : List Event) (a : SizeAcc)
    (h : AccInv skel maxB a) :
    AccInv skel maxB (evts.foldl (stepEvent skel maxB) a) := by
  induction evts generalizing a with
  | nil => exact h
  | cons e rest ih => exact ih _ (stepEvent_inv _ _ _ _ h)

theorem foldl_stepEvent_join (skel maxB : Nat) (evts : List Event) (a : SizeAcc) :
    accJoin (evts.foldl (stepEvent skel maxB) a)
      = accJoin a ++ evts.map Event.text := by
  induction evts generalizing a with
  | nil => simp
  | cons e rest ih =>
    rw [List.foldl_cons, ih, stepEvent_join]
    simp

theorem splitBySizeRun_chunkOk (d : Document) (maxB : Nat) :
    ∀ c ∈ (splitBySizeRun d maxB).chunks,
      ChunkOk (_calc_skeleton_size d.header_lines d.timezones) maxB c := by
  unfold splitBySizeRun
  simp only
  have h0 : AccInv (_calc_skeleton_size d.header_lines d.timezones) maxB
      { chunks := [], warnings := [], current_events := [],
        current_size := _calc_skeleton_size d.header_lines d.timezones } := by
    exact ⟨by simp, by simp, by simp⟩
  have hf := foldl_stepEvent_inv _ maxB d.events _ h0
  obtain ⟨hsz, hle, hch⟩ := hf
  split
  · exact hch
  · next hne =>
    intro c hc
    simp only [List.mem_append, List.mem_singleton] at hc
    rcases hc with hc | hc
    · exact hch c hc
    · subst hc
      intro t0 _ _
      have := hle hne
      omega

theorem splitBySizeRun_flatten (d : Document) (maxB : Nat) :
    (splitBySizeRun d maxB).chunks.flatten = d.events.map Event.text := by
  unfold splitBySizeRun
  simp only
  have hj := foldl_stepEvent_join (_calc_skeleton_size d.header_lines d.timezones)
    maxB d.events
    { chunks := [], warnings := [], current_events := [],
      current_size := _calc_skeleton_size d.header_lines d.timezones }
  unfold accJoin at hj
  simp only [List.flatten_nil, List.nil_append] at hj
  split
  · next hemp =>
    rw [hemp, List.append_nil] at hj
    exact hj
  · simpa using hj

/-! ## Claim theorems: the size-bounded split -/

/-- **C2**.  Skeleton consistency: the serialized size of a chunk holding
events `e1..ek` equals the skeleton size (the same document with zero
events) plus `Σ eventBytes(ei)`, exactly, where `eventBytes(e)` is the
UTF-8 size of `e` plus one for the joining newline. -/
theorem claim_C2 (hdr tz evts : List String) :
    (build_ics hdr tz evts).utf8ByteSize
      = (build_ics hdr tz []).utf8ByteSize + (evts.map eventBytes).sum :=
  build_ics_skeleton_sum hdr tz evts

/-- **C1**.  Size bound, nominal case: for every document and positive
`maxBytes`, every chunk of the size-bounded split whose first event
satisfies `eventBytes + skeleton ≤ maxBytes` (i.e. not emitted through the
oversized-single-event branch) serializes, via the document serializer, to
at most `maxBytes` UTF-8 bytes. -/
theorem claim_C1 (d : Document) (maxB : Nat) (hpos : 0 < maxB)
    (c : List String) (hc : c ∈ (splitBySizeRun d maxB).chunks)
    (t0 : String) (ht0 : c.head? = some t0)
    (hfit : eventBytes t0 + _calc_skeleton_size d.header_lines d.timezones ≤ maxB) :
    (build_ics d.header_lines d.timezones c).utf8ByteSize ≤ maxB := by
  have := splitBySizeRun_chunkOk d maxB c hc t0 ht0 hfit
  rw [build_ics_skeleton_sum]
  exact this

theorem claim_C1_witness :
    (0 < 100
      ∧ ["BEGIN:VEVENT\nEND:VEVENT"]
          ∈ (splitBySizeRun
              { header_lines := [], timezones := [],
                events := [{ text := "BEGIN:VEVENT\nEND:VEVENT", summary := "",
                             uid := "", dtstart := "" }] } 100).chunks
      ∧ ["BEGIN:VEVENT\nEND:VEVENT"].head? = some "BEGIN:VEVENT\nEND:VEVENT"
      ∧ eventBytes "BEGIN:VEVENT\nEND:VEVENT" + _calc_skeleton_size [] [] ≤ 100)
    ∧ (build_ics [] [] ["BEGIN:VEVENT\nEND:VEVENT"]).utf8ByteSize ≤ 100 :=
  ⟨⟨by decide, by decide, by decide, by decide⟩,
    claim_C1
      { header_lines := [], timezones := [],
        events := [{ text := "BEGIN:VEVENT\nEND:VEVENT", summary := "",
                     uid := "", dtstart := "" }] }
      100 (by decide) ["BEGIN:VEVENT\nEND:VEVENT"] (by decide)
      "BEGIN:VEVENT\nEND:VEVENT" (by decide) (by decide)⟩

/-- **C3**.  Order preservation: for every document and positive
`maxBytes`, concatenating the chunks of the size-bounded split, in chunk
order then within-chunk order, yields exactly the original event-text
sequence (nothing dropped, duplicated or reordered). -/
theorem claim_C3 (d : Document) (maxB : Nat) (hpos : 0 < maxB) :
    (splitBySizeRun d maxB).chunks.flatten = d.events.map Event.text :=
  splitBySizeRun_flatten d maxB

theorem claim_C3_witness :
    0 < 40
    ∧ (splitBySizeRun
        { header_lines := ["X:1"], timezones := [],
          events := [{ text := "BEGIN:VEVENT\nUID:a\nEND:VEVENT", summary := "",
                       uid := "a", dtstart := "" },
                     { text := "BEGIN:VEVENT\nUID:b\nEND:VEVENT", summary := "",
                       uid := "b", dtstart := "" }] } 40).chunks.flatten
      = List.map Event.text
          [{ text := "BEGIN:VEVENT\nUID:a\nEND:VEVENT", summary := "",
             uid := "a", dtstart := "" },
           { text := "BEGIN:VEVENT\nUID:b\nEND:VEVENT", summary := "",
             uid := "b", dtstart := "" }] :=
  ⟨by decide,
    claim_C3
      { header_lines := ["X:1"], timezones := [],
        events := [{ text := "BEGIN:VEVENT\nUID:a\nEND:VEVENT", summary := "",
                     uid := "a", dtstart := "" },
                   { text := "BEGIN:VEVENT\nUID:b\nEND:VEVENT", summary := "",
                     uid := "b", dtstart := "" }] }
      40 (by decide)⟩

/-- **C4**.  Oversized-single-event branch: when an event cannot fit even
alone (`eventBytes + skeleton > maxBytes`), the loop body first flushes a
non-empty accumulator as a completed chunk, then emits the oversized event
alone as its own chunk together with a warning carrying the event's summary
and its size versus the limit, and continues with an empty accumulator (so
the oversized event is never grouped with any other event).  The stated
`current_size` hypothesis is the arithmetic invariant that holds at every
reachable loop state. -/
theorem claim_C4 (skel maxB : Nat) (a : SizeAcc) (ev : Event)
    (hinv : a.current_size = skel + (a.current_events.map eventBytes).sum)
    (hover : maxB < eventBytes ev.text + skel) :
    stepEvent skel maxB a ev =
      { chunks := a.chunks
          ++ (if a.current_events = [] then [] else [a.current_events])
          ++ [[ev.text]],
        warnings := a.warnings ++ [⟨ev.summary, eventBytes ev.text + skel, maxB⟩],
        current_events := [],
        current_size := skel } := by
  unfold stepEvent
  simp only
  rw [if_pos hover]
  split
  · next hemp =>
    simp only [hemp, List.map_nil, List.sum_nil, Nat.add_zero] at hinv
    simp [hemp, hinv]
  · next hemp =>
    simp [hemp]

theorem claim_C4_witness :
    ((30 : Nat) = 30 + (List.map eventBytes ([] : List String)).sum
      ∧ 5 < eventBytes "BEGIN:VEVENT\nEND:VEVENT" + 30)
    ∧ stepEvent 30 5
        { chunks := [], warnings := [], current_events := [], current_size := 30 }
        { text := "BEGIN:VEVENT\nEND:VEVENT", summary := "s", uid := "", dtstart := "" } =
      { chunks := [[], [["BEGIN:VEVENT\nEND:VEVENT"]]].flatten,
        warnings := [⟨"s", eventBytes "BEGIN:VEVENT\nEND:VEVENT" + 30, 5⟩],
        current_events := [],
        current_size := 30 } :=
  ⟨⟨by decide, by decide⟩, by
    have h := claim_C4 30 5
      { chunks := [], warnings := [], current_events := [], current_size := 30 }
      { text := "BEGIN:VEVENT\nEND:VEVENT", summary := "s", uid := "", dtstart := "" }
      (by decide) (by decide)
    simpa using h⟩

/-! ## Sanitization: idempotence (C9) -/

theorem mem_collapseUnd {c : Char} : ∀ {l : List Char}, c ∈ collapseUnd l → c ∈ l := by
  intro l
  induction l with
  | nil => simp [collapseUnd]
  | cons a rest ih =>
    intro h
    rw [collapseUnd] at h
    split at h
    · exact List.mem_cons_of_mem a (ih h)
    · simp only [List.mem_cons] at h ⊢
      rcases h with h | h
      · exact Or.inl h
      · exact Or.inr (ih h)

theorem head?_collapseUnd : ∀ (l : List Char), (collapseUnd l).head? = l.head? := by
  intro l
  induction l with
  | nil => rfl
  | cons a rest ih =>
    rw [collapseUnd]
    split
    · next hc =>
      rw [ih, hc.2, hc.1]
      rfl
    · rfl

theorem chain'_collapseUnd : ∀ (l : List Char), List.Chain' undPair (collapseUnd l) := by
  intro l
  induction l with
  | nil => simp [collapseUnd]
  | cons a rest ih =>
    rw [collapseUnd]
    split
    · exact ih
    · next hc =>
      rw [List.chain'_cons']
      refine ⟨?_, ih⟩
      intro y hy hboth
      rw [head?_collapseUnd] at hy
      exact hc ⟨hboth.1, by rw [hy, hboth.2]⟩

theorem collapseUnd_eq_self : ∀ {l : List Char}, List.Chain' undPair l → collapseUnd l = l := by
  intro l
  induction l with
  | nil => intro _; rfl
  | cons a rest ih =>
    intro h
    rw [collapseUnd]
    split
    · next hc =>
      exfalso
      rw [List.chain'_cons'] at h
      cases rest with
      | nil => simp at hc
      | cons r t =>
        have hr : r = '_' := by
          have := hc.2
          simpa using this
        exact h.1 r rfl ⟨hc.1, hr⟩
    · rw [ih (List.Chain'.tail h)]

theorem head?_dropWhileU {l : List Char} {c : Char}
    (h : (l.dropWhile (fun x => x == '_')).head? = some c) : c ≠ '_' := by
  have := List.head?_dropWhile_not (fun x => x == '_') l
  rw [h] at this
  simpa using this

theorem mem_stripUnd {c : Char} {l : List Char} (h : c ∈ stripUnd l) : c ∈ l := by
  unfold stripUnd at h
  rw [List.mem_reverse] at h
  have h2 := (List.dropWhile_sublist _).mem h
  rw [List.mem_reverse] at h2
  exact (List.dropWhile_sublist _).mem h2

theorem chain'_stripUnd {l : List Char} (h : List.Chain' undPair l) :
    List.Chain' undPair (stripUnd l) := by
  unfold stripUnd
  have h1 : List.Chain' undPair (l.dropWhile (fun x => x == '_')) :=
    h.suffix (List.dropWhile_suffix _)
  have h2 : List.Chain' (flip undPair) (l.dropWhile (fun x => x == '_')).reverse :=
    List.chain'_reverse.mpr (h1.imp (fun a b hab => by
      simp only [flip, undPair] at *
      tauto))
  have h3 : List.Chain' (flip undPair)
      ((l.dropWhile (fun x => x == '_')).reverse.dropWhile (fun x => x == '_')) :=
    h2.suffix (List.dropWhile_suffix _)
  exact List.chain'_reverse.mpr (h3.imp (fun a b hab => by
    simp only [flip, undPair] at *
    tauto))

theorem head?_stripUnd {l : List Char} {c : Char} (h : (stripUnd l).head? = some c) :
    c ≠ '_' := by
  unfold stripUnd at h
  rw [List.head?_reverse] at h
  set D := (l.dropWhile (fun x => x == '_')).reverse.dropWhile (fun x => x == '_')
    with hD
  obtain ⟨t, ht⟩ := List.dropWhile_suffix (l := (l.dropWhile (fun x => x == '_')).reverse)
    (fun x => x == '_')
  rw [← hD] at ht
  have hDne : D ≠ [] := by
    intro h0
    rw [h0] at h
    simp at h
  have hgl : (l.dropWhile (fun x => x == '_')).reverse.getLast? = some c := by
    rw [← ht, List.getLast?_append, h]
    rfl
  rw [List.getLast?_reverse] at hgl
  exact head?_dropWhileU hgl

theorem getLast?_stripUnd {l : List Char} {c : Char} (h : (stripUnd l).getLast? = some c) :
    c ≠ '_' := by
  unfold stripUnd at h
  rw [List.getLast?_reverse] at h
  exact head?_dropWhileU h

theorem dropWhileU_eq_self {l : List Char}
    (h : ∀ c, l.head? = some c → c ≠ '_') :
    l.dropWhile (fun x => x == '_') = l := by
  cases l with
  | nil => rfl
  | cons a t =>
    have := h a rfl
    simp [List.dropWhile_cons, this]

theorem stripUnd_eq_self {l : List Char}
    (hhead : ∀ c, l.head? = some c → c ≠ '_')
    (hlast : ∀ c, l.getLast? = some c → c ≠ '_') :
    stripUnd l = l := by
  unfold stripUnd
  rw [dropWhileU_eq_self hhead]
  rw [dropWhileU_eq_self (by
    intro c hc
    rw [List.head?_reverse] at hc
    exact hlast c hc)]
  exact List.reverse_reverse l

theorem map_space_eq_self {l : List Char} (h : ∀ c ∈ l, c ≠ ' ') :
    l.map (fun c => if c = ' ' then '_' else c) = l := by
  induction l with
  | nil => rfl
  | cons a t ih =>
    simp only [List.map_cons, if_neg (h a (by simp))]
    rw [ih (fun c hc => h c (by simp [hc]))]

/-- A char list on which `sanitize_filename` acts as the identity. -/
theorem sanitize_fixed (l : List Char) (hne : l ≠ [])
    (hchars : ∀ c ∈ l, illegalChars.contains c = false ∧ c ≠ ' ')
    (hchain : List.Chain' undPair l)
    (hhead : ∀ c, l.head? = some c → c ≠ '_')
    (hlast : ∀ c, l.getLast? = some c → c ≠ '_') :
    sanitize_filename ⟨l⟩ = ⟨l⟩ := by
  unfold sanitize_filename
  simp only
  rw [List.filter_eq_self.mpr (fun c hc => by rw [(hchars c hc).1]; rfl)]
  rw [map_space_eq_self (fun c hc => (hchars c hc).2)]
  rw [collapseUnd_eq_self hchain]
  rw [stripUnd_eq_self hhead hlast]
  rw [if_neg hne]

/-- **C9**.  Idempotence of filename sanitization:
`sanitize(sanitize(x)) = sanitize(x)` for every string `x`. -/
theorem claim_C9 (x : String) :
    sanitize_filename (sanitize_filename x) = sanitize_filename x := by
  have hdef : sanitize_filename x =
      (if stripUnd (collapseUnd ((x.data.filter
            (fun c => !(illegalChars.contains c))).map
              (fun c => if c = ' ' then '_' else c))) = []
       then "untitled"
       else ⟨stripUnd (collapseUnd ((x.data.filter
            (fun c => !(illegalChars.contains c))).map
              (fun c => if c = ' ' then '_' else c)))⟩) := rfl
  set s4 := stripUnd (collapseUnd ((x.data.filter
      (fun c => !(illegalChars.contains c))).map
        (fun c => if c = ' ' then '_' else c))) with hs4
  by_cases hemp : s4 = []
  · rw [hdef, if_pos hemp]
    decide
  · rw [hdef, if_neg hemp]
    apply sanitize_fixed _ hemp
    · intro c hc
      have hc2 := mem_collapseUnd (mem_stripUnd (hs4 ▸ hc))
      rw [List.mem_map] at hc2
      obtain ⟨b, hb, hbc⟩ := hc2
      have hkb := List.of_mem_filter hb
      have hkb' : illegalChars.contains b = false := by
        simpa using hkb
      subst hbc
      by_cases hsp : b = ' '
      · subst hsp
        exact ⟨by decide, by decide⟩
      · rw [if_neg hsp]
        exact ⟨hkb', hsp⟩
    · exact chain'_stripUnd (chain'_collapseUnd _)
    · intro c hc
      exact head?_stripUnd (hs4 ▸ hc)
    · intro c hc
      exact getLast?_stripUnd (hs4 ▸ hc)

/-! ## No-events path (C10) -/

/-- **C10**.  When parsing yields zero events, `split_ical` returns the
empty list immediately: no filesystem action at all is performed — in
particular the output directory is not created and no file is written, in
either split mode (any `maxSizeBytes`). -/
theorem claim_C10 (content outDir pfx : String) (maxSizeBytes : Nat)
    (h : (parse_ical content).events = []) :
    splitIcalRun content outDir pfx maxSizeBytes = ([], []) := by
  unfold splitIcalRun
  rw [if_pos h]

theorem claim_C10_witness :
    (parse_ical "BEGIN:VCALENDAR\nX:1\nEND:VCALENDAR\n").events = []
    ∧ splitIcalRun "BEGIN:VCALENDAR\nX:1\nEND:VCALENDAR\n" "out" "" 0 = ([], [])
    ∧ splitIcalRun "BEGIN:VCALENDAR\nX:1\nEND:VCALENDAR\n" "out" "p" 1024 = ([], []) :=
  ⟨by decide,
    claim_C10 "BEGIN:VCALENDAR\nX:1\nEND:VCALENDAR\n" "out" "" 0 (by decide),
    claim_C10 "BEGIN:VCALENDAR\nX:1\nEND:VCALENDAR\n" "out" "p" 1024 (by decide)⟩

/-! ## Single-step characterization of the parse loop -/

theorem not_calTag_iff {line : String} (h : isCalTag line = false) :
    ¬(pyStrip line = "BEGIN:VCALENDAR" ∨ pyStrip line = "END:VCALENDAR") := by
  simp only [isCalTag, Bool.or_eq_false_iff, beq_eq_false_iff_ne, ne_eq] at h
  tauto

theorem stepLine_calTag {s : ParseState} {line : String} (h : isCalTag line = true) :
    stepLine s line = s := by
  unfold stepLine
  simp only
  rw [if_pos]
  simp only [isCalTag, Bool.or_eq_true, beq_iff_eq] at h
  exact h

theorem stepLine_header {s : ParseState} {line : String}
    (hbt : s.block_type = none) (h : headerLineB line = true) :
    stepLine s line = { s with header_lines := s.header_lines ++ [line] } := by
  simp only [headerLineB, Bool.and_eq_true, bne_iff_ne, ne_eq, Bool.not_eq_true'] at h
  obtain ⟨⟨hne, hct⟩, hbg⟩ := h
  unfold stepLine
  simp only
  rw [if_neg (not_calTag_iff hct)]
  rw [hbt]
  simp only
  rw [if_neg (by simp only [beginsB] at hbg; simp [hbg])]
  rw [if_pos hne]

theorem stepLine_blank {s : ParseState} {line : String}
    (hbt : s.block_type = none) (hct : isCalTag line = false)
    (hbg : beginsB line = false) (hne : pyStrip line = "") :
    stepLine s line = s := by
  unfold stepLine
  simp only
  rw [if_neg (not_calTag_iff hct)]
  rw [hbt]
  simp only
  rw [if_neg (by simp only [beginsB] at hbg; simp [hbg])]
  rw [if_neg (by simp [hne])]

theorem stepLine_open {s : ParseState} {line bt : String}
    (hbt : s.block_type = none) (h : opensB line bt = true) :
    stepLine s line =
      { s with block_type := some bt, current_block := [line], nesting := 1 } := by
  simp only [opensB, Bool.and_eq_true, Bool.not_eq_true', beq_iff_eq] at h
  obtain ⟨⟨hct, hbg⟩, hbteq⟩ := h
  unfold stepLine
  simp only
  rw [if_neg (not_calTag_iff hct)]
  rw [hbt]
  simp only
  rw [if_pos (by simpa [beginsB] using hbg)]
  rw [← hbteq]

theorem nesting_update (line : String) (k : Int) (h : isCalTag line = false) :
    (if beginsB line then k + 1 else if endsB line then k - 1 else k)
      = k + lineDelta line := by
  unfold lineDelta
  rw [h]
  simp only [Bool.false_eq_true, if_false]
  split
  · rfl
  · split
    · omega
    · omega

theorem stepLine_inside {s : ParseState} {line bt : String}
    (hbt : s.block_type = some bt) (hct : isCalTag line = false)
    (hn : s.nesting + lineDelta line ≠ 0) :
    stepLine s line =
      { s with current_block := s.current_block ++ [line],
               nesting := s.nesting + lineDelta line } := by
  unfold stepLine
  simp only
  rw [if_neg (not_calTag_iff hct)]
  rw [hbt]
  simp only
  rw [show (if pyStartsWith (pyStrip line) "BEGIN:" then s.nesting + 1
        else if pyStartsWith (pyStrip line) "END:" then s.nesting - 1
        else s.nesting) = s.nesting + lineDelta line from nesting_update line s.nesting hct]
  rw [if_neg hn]

theorem stepLine_close {s : ParseState} {line bt : String}
    (hbt : s.block_type = some bt) (hct : isCalTag line = false)
    (hn : s.nesting + lineDelta line = 0) :
    stepLine s line = closeBlock s bt (s.current_block ++ [line]) := by
  unfold stepLine
  simp only
  rw [if_neg (not_calTag_iff hct)]
  rw [hbt]
  simp only
  rw [show (if pyStartsWith (pyStrip line) "BEGIN:" then s.nesting + 1
        else if pyStartsWith (pyStrip line) "END:" then s.nesting - 1
        else s.nesting) = s.nesting + lineDelta line from nesting_update line s.nesting hct]
  rw [if_pos hn]

/-! ## Whole-block processing -/

theorem lineDelta_calTag {l : String} (h : isCalTag l = true) : lineDelta l = 0 := by
  unfold lineDelta
  rw [if_pos h]

theorem blockLines_cons_calTag {l : String} (ls : List String) (h : isCalTag l = true) :
    blockLines (l :: ls) = blockLines ls := by
  unfold blockLines
  rw [List.filter_cons, if_neg (by simp [nonCalTag, h])]

theorem blockLines_cons_nonCalTag {l : String} (ls : List String) (h : isCalTag l = false) :
    blockLines (l :: ls) = l :: blockLines ls := by
  unfold blockLines
  rw [List.filter_cons, if_pos (by simp [nonCalTag, h])]

theorem blockLines_append (xs ys : List String) :
    blockLines (xs ++ ys) = blockLines xs ++ blockLines ys := by
  unfold blockLines
  exact List.filter_append ..

theorem deltaSum_nil : deltaSum [] = 0 := rfl

theorem deltaSum_cons (l : String) (ls : List String) :
    deltaSum (l :: ls) = lineDelta l + deltaSum ls := by
  unfold deltaSum
  simp

theorem deltaSum_append (xs ys : List String) :
    deltaSum (xs ++ ys) = deltaSum xs + deltaSum ys := by
  unfold deltaSum
  simp

theorem neverCloses_cons {k : Int} {l : String} {ls : List String} :
    neverCloses k (l :: ls) = ((k + lineDelta l != 0) && neverCloses (k + lineDelta l) ls) := by
  rfl

theorem neverCloses_nonzero : ∀ (body : List String) (k : Int),
    neverCloses k body = true → k ≠ 0 → k + deltaSum body ≠ 0 := by
  intro body
  induction body with
  | nil => intro k _ hk; simpa [deltaSum_nil] using hk
  | cons l ls ih =>
    intro k h hk
    rw [neverCloses_cons, Bool.and_eq_true, bne_iff_ne] at h
    have := ih (k + lineDelta l) h.2 h.1
    rw [deltaSum_cons]
    omega

theorem neverCloses_snoc {k : Int} {body : List String} {l : String}
    (h : neverCloses k body = true) (hne : k + deltaSum body + lineDelta l ≠ 0) :
    neverCloses k (body ++ [l]) = true := by
  induction body generalizing k with
  | nil =>
    simp only [List.nil_append, neverCloses_cons, Bool.and_eq_true, bne_iff_ne]
    rw [deltaSum_nil] at hne
    exact ⟨by omega, rfl⟩
  | cons m ls ih =>
    rw [neverCloses_cons, Bool.and_eq_true, bne_iff_ne] at h
    rw [List.cons_append, neverCloses_cons, Bool.and_eq_true, bne_iff_ne]
    refine ⟨h.1, ih h.2 ?_⟩
    rw [deltaSum_cons] at hne
    omega

theorem closesWhole_cons_cons {k : Int} {l m : String} {rest : List String} :
    closesWhole k (l :: m :: rest)
      = ((k + lineDelta l != 0) && closesWhole (k + lineDelta l) (m :: rest)) := by
  rfl

theorem closesWhole_snoc {k : Int} {body : List String} {l : String}
    (h : neverCloses k body = true) (hz : k + deltaSum body + lineDelta l = 0) :
    closesWhole k (body ++ [l]) = true := by
  induction body generalizing k with
  | nil =>
    simp only [List.nil_append, closesWhole]
    rw [deltaSum_nil] at hz
    simp only [beq_iff_eq]
    omega
  | cons m ls ih =>
    rw [neverCloses_cons, Bool.and_eq_true, bne_iff_ne] at h
    cases ls with
    | nil =>
      rw [List.cons_append, List.nil_append, closesWhole_cons_cons,
        Bool.and_eq_true, bne_iff_ne]
      refine ⟨h.1, ?_⟩
      have := ih (k := k + lineDelta m) (by rfl) (by
        rw [deltaSum_cons, deltaSum_nil] at hz
        rw [deltaSum_nil]
        omega)
      simpa using this
    | cons r t =>
      simp only [List.cons_append]
      rw [closesWhole_cons_cons, Bool.and_eq_true, bne_iff_ne]
      refine ⟨h.1, ?_⟩
      have := ih h.2 (by rw [deltaSum_cons] at hz; omega)
      simpa [List.cons_append] using this

/-- Canonical form of `closeBlock`: it only reads the three output
sequences of the state and resets the in-progress-block fields. -/
theorem closeBlock_fields (s : ParseState) (bt : String) (cb : List String) :
    closeBlock s bt cb =
      { header_lines := s.header_lines,
        timezones := s.timezones ++ (if bt = "VTIMEZONE" then [njoin cb] else []),
        events := s.events
          ++ (if bt = "VEVENT" then [mkEvent (njoin cb)] else []),
        current_block := [], block_type := none, nesting := 0 } := by
  unfold closeBlock
  split
  · next h => simp [h]
  · next h =>
    split
    · next h2 => simp [h, h2]
    · next h2 => simp [h, h2]

/-- Processing the body of a block whose nesting never returns to zero:
the block stays open, accumulating exactly the non-container-tag lines. -/
theorem foldl_body_open : ∀ (body : List String) (k : Int) (s : ParseState) (bt : String),
    neverCloses k body = true → s.block_type = some bt → s.nesting = k →
    List.foldl stepLine s body =
      { s with current_block := s.current_block ++ blockLines body,
               nesting := k + deltaSum body } := by
  intro body
  induction body with
  | nil =>
    intro k s bt _ _ hk
    simp [blockLines, deltaSum_nil, ← hk]
  | cons l ls ih =>
    intro k s bt hnc hbt hk
    rw [neverCloses_cons, Bool.and_eq_true, bne_iff_ne] at hnc
    rw [List.foldl_cons]
    by_cases hct : isCalTag l = true
    · rw [stepLine_calTag hct]
      have hd := lineDelta_calTag hct
      rw [hd, Int.add_zero] at hnc
      have := ih k s bt hnc.2 hbt hk
      rw [this, blockLines_cons_calTag _ hct, deltaSum_cons, hd]
      simp
    · rw [Bool.not_eq_true] at hct
      rw [stepLine_inside hbt hct (by rw [hk]; exact hnc.1)]
      have := ih (k + lineDelta l)
        { s with current_block := s.current_block ++ [l], nesting := s.nesting + lineDelta l }
        bt hnc.2 (by simp [hbt]) (by simp [hk])
      rw [this, blockLines_cons_nonCalTag _ hct, deltaSum_cons]
      simp only [hk, List.append_assoc, Int.add_assoc, List.cons_append,
        List.singleton_append, List.nil_append]

/-- Processing the body of a block whose nesting returns to zero exactly on
the last line: the block is flushed whole through `closeBlock`, with all its
non-container-tag lines. -/
theorem foldl_body_close : ∀ (body : List String) (k : Int) (s : ParseState) (bt : String),
    closesWhole k body = true → k ≠ 0 → s.block_type = some bt → s.nesting = k →
    List.foldl stepLine s body
      = closeBlock s bt (s.current_block ++ blockLines body) := by
  intro body
  induction body with
  | nil => intro k s bt h _ _ _; simp [closesWhole] at h
  | cons l ls ih =>
    intro k s bt hcw hk hbt hkk
    rw [List.foldl_cons]
    cases ls with
    | nil =>
      simp only [closesWhole, beq_iff_eq] at hcw
      have hct : isCalTag l = false := by
        by_contra hc
        rw [Bool.not_eq_false] at hc
        rw [lineDelta_calTag hc] at hcw
        omega
      rw [stepLine_close hbt hct (by rw [hkk]; omega)]
      rw [blockLines_cons_nonCalTag _ hct]
      rfl
    | cons m rest =>
      rw [closesWhole_cons_cons, Bool.and_eq_true, bne_iff_ne] at hcw
      by_cases hct : isCalTag l = true
      · rw [stepLine_calTag hct]
        have hd := lineDelta_calTag hct
        rw [hd, Int.add_zero] at hcw
        have := ih k s bt hcw.2 hk hbt hkk
        rw [this, blockLines_cons_calTag _ hct]
      · rw [Bool.not_eq_true] at hct
        rw [stepLine_inside hbt hct (by rw [hkk]; exact hcw.1)]
        have := ih (k + lineDelta l)
          { s with current_block := s.current_block ++ [l],
                   nesting := s.nesting + lineDelta l }
          bt hcw.2 hcw.1 (by simp [hbt]) (by simp [hkk])
        rw [this, blockLines_cons_nonCalTag _ hct]
        rw [closeBlock_fields, closeBlock_fields]
        simp

/-- Processing a complete well-formed block from a clean state: exactly one
block is flushed, containing every non-container-tag line of the block. -/
theorem foldl_goodBlock : ∀ (block : List String) (bt : String) (s : ParseState),
    goodBlockB bt block = true → s.block_type = none →
    List.foldl stepLine s block = closeBlock s bt (blockLines block) := by
  intro block bt s hgb hbt
  cases block with
  | nil => simp [goodBlockB] at hgb
  | cons op body =>
    rw [goodBlockB, Bool.and_eq_true] at hgb
    have hop : isCalTag op = false := by
      have := hgb.1
      rw [opensB, Bool.and_eq_true, Bool.and_eq_true, Bool.not_eq_true'] at this
      exact this.1.1
    rw [List.foldl_cons, stepLine_open hbt hgb.1]
    rw [foldl_body_close body 1
      { s with block_type := some bt, current_block := [op], nesting := 1 }
      bt hgb.2 (by omega) (by simp) (by simp)]
    rw [blockLines_cons_nonCalTag _ hop]
    rw [closeBlock_fields, closeBlock_fields]
    simp

/-- Processing a sequence of header lines from a clean state appends them
all to `header_lines` and touches nothing else. -/
theorem foldl_headers : ∀ (hls : List String) (s : ParseState),
    (∀ l ∈ hls, headerLineB l = true) → s.block_type = none →
    List.foldl stepLine s hls = { s with header_lines := s.header_lines ++ hls } := by
  intro hls
  induction hls with
  | nil => intro s _ _; simp
  | cons l ls ih =>
    intro s hall hbt
    rw [List.foldl_cons, stepLine_header hbt (hall l (by simp))]
    rw [ih _ (fun x hx => hall x (by simp [hx])) (by simpa using hbt)]
    simp

/-! ## The parse-loop completeness invariant -/

theorem stateInv_step {ls : List String} {s : ParseState} (l : String)
    (h : StateInv ls s) : StateInv (ls ++ [l]) (stepLine s l) := by
  obtain ⟨H, T, E, O⟩ := h
  have Hext : ∀ l' ∈ s.header_lines, headerLineB l' = true ∧ l' ∈ ls ++ [l] :=
    fun l' hl' => ⟨(H l' hl').1, by simp [(H l' hl').2]⟩
  have Text : ∀ t ∈ s.timezones, ∃ pre block post, ls ++ [l] = pre ++ block ++ post
      ∧ goodBlockB "VTIMEZONE" block = true ∧ t = mkBlockText block := by
    intro t ht
    obtain ⟨pre, block, post, h1, h2, h3⟩ := T t ht
    exact ⟨pre, block, post ++ [l], by rw [h1]; simp, h2, h3⟩
  have Eext : ∀ e ∈ s.events, ∃ pre block post, ls ++ [l] = pre ++ block ++ post
      ∧ goodBlockB "VEVENT" block = true ∧ e = mkEventFromBlock block := by
    intro e he
    obtain ⟨pre, block, post, h1, h2, h3⟩ := E e he
    exact ⟨pre, block, post ++ [l], by rw [h1]; simp, h2, h3⟩
  by_cases hct : isCalTag l = true
  · rw [stepLine_calTag hct]
    refine ⟨Hext, Text, Eext, ?_⟩
    cases hbt : s.block_type with
    | none =>
      simp only [hbt] at O
      simp only [hbt]
      exact O
    | some bt =>
      simp only [hbt] at O
      simp only [hbt]
      obtain ⟨pre, op, body, h1, h2, h3, h4, h5⟩ := O
      refine ⟨pre, op, body ++ [l], by rw [h1]; simp, h2, ?_, ?_, ?_⟩
      · refine neverCloses_snoc h3 ?_
        rw [lineDelta_calTag hct]
        have := neverCloses_nonzero body 1 h3 (by omega)
        omega
      · rw [h4, show op :: (body ++ [l]) = (op :: body) ++ [l] from by simp]
        rw [blockLines_append]
        rw [show blockLines [l] = [] from by
          rw [blockLines_cons_calTag _ hct]; rfl]
        simp
      · rw [deltaSum_append, deltaSum_cons, deltaSum_nil, lineDelta_calTag hct, h5]
        omega
  · rw [Bool.not_eq_true] at hct
    cases hbt : s.block_type with
    | none =>
      simp only [hbt] at O
      by_cases hbg : beginsB l = true
      · have hopens : opensB l (⟨afterFirstColon (pyStrip l).data⟩ : String) = true := by
          simp [opensB, hct, hbg]
        rw [stepLine_open hbt hopens]
        refine ⟨Hext, Text, Eext, ?_⟩
        simp only
        refine ⟨ls, l, [], by simp, hopens, rfl, ?_, ?_⟩
        · rw [blockLines_cons_nonCalTag _ hct]
          rfl
        · rw [deltaSum_nil]
          omega
      · rw [Bool.not_eq_true] at hbg
        by_cases hne : pyStrip l = ""
        · rw [stepLine_blank hbt hct hbg hne]
          refine ⟨Hext, Text, Eext, ?_⟩
          simp only [hbt]
          exact O
        · have hhl : headerLineB l = true := by
            simp [headerLineB, hne, hct, hbg]
          rw [stepLine_header hbt hhl]
          refine ⟨?_, Text, Eext, ?_⟩
          · intro l' hl'
            simp only [List.mem_append, List.mem_singleton] at hl'
            rcases hl' with hl' | hl'
            · exact Hext l' hl'
            · subst hl'
              exact ⟨hhl, by simp⟩
          · simp only [hbt]
            exact O
    | some bt =>
      simp only [hbt] at O
      obtain ⟨pre, op, body, h1, h2, h3, h4, h5⟩ := O
      by_cases hn : s.nesting + lineDelta l = 0
      · rw [stepLine_close hbt hct hn, closeBlock_fields]
        have hop : isCalTag op = false := by
          rw [opensB, Bool.and_eq_true, Bool.and_eq_true, Bool.not_eq_true'] at h2
          exact h2.1.1
        have hblock : ls ++ [l] = pre ++ ((op :: body) ++ [l]) ++ [] := by
          rw [h1]
          simp
        have hgood : goodBlockB bt ((op :: body) ++ [l]) = true := by
          rw [show ((op :: body) ++ [l]) = op :: (body ++ [l]) from by simp]
          rw [goodBlockB, Bool.and_eq_true]
          refine ⟨h2, closesWhole_snoc h3 ?_⟩
          omega
        have htext : njoin (s.current_block ++ [l])
            = mkBlockText ((op :: body) ++ [l]) := by
          rw [h4]
          unfold mkBlockText
          rw [blockLines_append]
          rw [show blockLines [l] = [l] from by
            rw [blockLines_cons_nonCalTag _ hct]; rfl]
        refine ⟨Hext, ?_, ?_, by exact ⟨rfl, rfl⟩⟩
        · intro t ht
          simp only [List.mem_append] at ht
          rcases ht with ht | ht
          · exact Text t ht
          · split at ht
            · next hvt =>
              simp only [List.mem_singleton] at ht
              subst ht
              subst hvt
              exact ⟨pre, (op :: body) ++ [l], [], hblock, hgood, htext⟩
            · simp at ht
        · intro e he
          simp only [List.mem_append] at he
          rcases he with he | he
          · exact Eext e he
          · split at he
            · next hve =>
              simp only [List.mem_singleton] at he
              subst he
              subst hve
              refine ⟨pre, (op :: body) ++ [l], [], hblock, hgood, ?_⟩
              unfold mkEventFromBlock
              rw [← htext]
            · simp at he
      · rw [stepLine_inside hbt hct hn]
        refine ⟨Hext, Text, Eext, ?_⟩
        simp only [hbt]
        refine ⟨pre, op, body ++ [l], by rw [h1]; simp, h2, ?_, ?_, ?_⟩
        · exact neverCloses_snoc h3 (by omega)
        · rw [h4, show op :: (body ++ [l]) = (op :: body) ++ [l] from by simp]
          rw [blockLines_append]
          rw [show blockLines [l] = [l] from by
            rw [blockLines_cons_nonCalTag _ hct]; rfl]
        · rw [deltaSum_append, deltaSum_cons, deltaSum_nil, h5]
          omega

theorem stateInv_parseLines : ∀ ls : List String, StateInv ls (parseLines ls) := by
  intro ls
  induction ls using List.reverseRecOn with
  | nil =>
    refine ⟨?_, ?_, ?_, ?_⟩ <;> simp [parseLines, initState, StateInv]
  | append_singleton xs x ih =>
    have : parseLines (xs ++ [x]) = stepLine (parseLines xs) x := by
      unfold parseLines
      rw [List.foldl_append]
      rfl
    rw [this]
    exact stateInv_step x ih

/-! ## Claim theorems: the parser -/

/-- **C6**, counterexample to the claim as stated.  On an input whose event
block contains an internal line `END:VCALENDAR`, the parsed event's text is
NOT the full opening-to-closing slice of input lines joined by newlines:
the internal container-tag line is silently skipped (dropped from the
accumulated block), so an internal line IS omitted.  The parsed event text
lacks the `END:VCALENDAR` line that sits between its opening `BEGIN:VEVENT`
line and its closing `END:VEVENT` line in the input. -/
theorem claim_C6_counterexample :
    (parse_ical "BEGIN:VCALENDAR\nBEGIN:VEVENT\nSUMMARY:x\nEND:VCALENDAR\nEND:VEVENT\nEND:VCALENDAR\n").events.map
        Event.text
      = ["BEGIN:VEVENT\nSUMMARY:x\nEND:VEVENT"]
    ∧ splitLines "BEGIN:VCALENDAR\nBEGIN:VEVENT\nSUMMARY:x\nEND:VCALENDAR\nEND:VEVENT\nEND:VCALENDAR\n"
      = ["BEGIN:VCALENDAR", "BEGIN:VEVENT", "SUMMARY:x", "END:VCALENDAR",
         "END:VEVENT", "END:VCALENDAR"]
    ∧ "BEGIN:VEVENT\nSUMMARY:x\nEND:VEVENT"
      ≠ njoin ["BEGIN:VEVENT", "SUMMARY:x", "END:VCALENDAR", "END:VEVENT"] := by
  refine ⟨by decide, by decide, by decide⟩

/-- **C6**, amended.  Every parsed event's text is the verbatim text of a
contiguous block of input lines — from its opening `BEGIN` tag line to the
closing line that brings nesting back to zero, inclusive — joined by
newlines, except that lines whose stripped form is `BEGIN:VCALENDAR` or
`END:VCALENDAR` are omitted (the parser skips them everywhere); all other
internal lines, including nested sub-blocks, are preserved exactly as
written. -/
theorem claim_C6_amended (content : String) (e : Event)
    (he : e ∈ (parse_ical content).events) :
    ∃ pre block post, splitLines content = pre ++ block ++ post
      ∧ goodBlockB "VEVENT" block = true
      ∧ e.text = mkBlockText block := by
  have hinv := (stateInv_parseLines (splitLines content)).2.2.1 e he
  obtain ⟨pre, block, post, h1, h2, h3⟩ := hinv
  exact ⟨pre, block, post, h1, h2, by rw [h3]; rfl⟩

theorem claim_C6_amended_witness :
    ({ text := "BEGIN:VEVENT\nUID:u\nEND:VEVENT", summary := "", uid := "u",
       dtstart := "" } : Event)
      ∈ (parse_ical "BEGIN:VCALENDAR\nBEGIN:VEVENT\nUID:u\nEND:VEVENT\nEND:VCALENDAR\n").events
    ∧ (∃ pre block post,
        splitLines "BEGIN:VCALENDAR\nBEGIN:VEVENT\nUID:u\nEND:VEVENT\nEND:VCALENDAR\n"
          = pre ++ block ++ post
        ∧ goodBlockB "VEVENT" block = true
        ∧ ({ text := "BEGIN:VEVENT\nUID:u\nEND:VEVENT", summary := "", uid := "u",
             dtstart := "" } : Event).text = mkBlockText block) :=
  ⟨by decide,
    claim_C6_amended "BEGIN:VCALENDAR\nBEGIN:VEVENT\nUID:u\nEND:VEVENT\nEND:VCALENDAR\n"
      { text := "BEGIN:VEVENT\nUID:u\nEND:VEVENT", summary := "", uid := "u",
        dtstart := "" }
      (by decide)⟩

/-- **C7**, counterexample to the claim as stated.  The code never compares
an `END` line's tag name with the open block's tag: ANY `END:` line
decrements the nesting counter, so a block can terminate on a non-matching
closing tag.  Here a `VEVENT` block is terminated (and flushed as an event)
by the line `END:FOO`, whose tag name `FOO` differs from the opening tag
name `VEVENT`. -/
theorem claim_C7_counterexample :
    (parse_ical "BEGIN:VCALENDAR\nBEGIN:VEVENT\nSUMMARY:y\nEND:FOO\nEND:VCALENDAR\n").events.map
        Event.text
      = ["BEGIN:VEVENT\nSUMMARY:y\nEND:FOO"]
    ∧ (⟨afterFirstColon (pyStrip "END:FOO").data⟩ : String) = "FOO"
    ∧ ("FOO" : String) ≠ "VEVENT" := by
  refine ⟨by decide, by decide, by decide⟩

/-- **C7**, amended.  A block terminates exactly when an `END:` line — of
any tag name — brings the nesting depth back to zero: (a) while the depth
stays positive the block remains open and nothing is flushed; (b) a
complete top-level block, including nested sub-blocks of the same or a
different type tracked by the depth counter, is captured whole as one
block flush. -/
theorem claim_C7_amended :
    (∀ (s : ParseState) (bt : String) (body : List String),
        s.block_type = some bt → neverCloses s.nesting body = true →
          (List.foldl stepLine s body).block_type = some bt
          ∧ (List.foldl stepLine s body).events = s.events
          ∧ (List.foldl stepLine s body).timezones = s.timezones)
    ∧ (∀ (s : ParseState) (bt : String) (block : List String),
        s.block_type = none → goodBlockB bt block = true →
          List.foldl stepLine s block = closeBlock s bt (blockLines block)) := by
  constructor
  · intro s bt body hbt hnc
    rw [foldl_body_open body s.nesting s bt hnc hbt rfl]
    exact ⟨hbt, rfl, rfl⟩
  · intro s bt block hbt hgb
    exact foldl_goodBlock block bt s hgb hbt

theorem claim_C7_amended_witness :
    ((({ header_lines := [], timezones := [], events := [],
          current_block := ["BEGIN:VEVENT"], block_type := some "VEVENT",
          nesting := 1 } : ParseState).block_type = some "VEVENT"
      ∧ neverCloses (1 : Int) ["BEGIN:VALARM", "END:VALARM"] = true)
      ∧ (List.foldl stepLine
          { header_lines := [], timezones := [], events := [],
            current_block := ["BEGIN:VEVENT"], block_type := some "VEVENT",
            nesting := 1 } ["BEGIN:VALARM", "END:VALARM"]).block_type
          = some "VEVENT")
    ∧ (initState.block_type = none
      ∧ goodBlockB "VEVENT"
          ["BEGIN:VEVENT", "BEGIN:VALARM", "END:VALARM", "END:VEVENT"] = true
      ∧ List.foldl stepLine initState
          ["BEGIN:VEVENT", "BEGIN:VALARM", "END:VALARM", "END:VEVENT"]
        = closeBlock initState "VEVENT"
            (blockLines ["BEGIN:VEVENT", "BEGIN:VALARM", "END:VALARM", "END:VEVENT"])) :=
  ⟨⟨⟨by decide, by decide⟩,
    (claim_C7_amended.1
      { header_lines := [], timezones := [], events := [],
        current_block := ["BEGIN:VEVENT"], block_type := some "VEVENT",
        nesting := 1 } "VEVENT" ["BEGIN:VALARM", "END:VALARM"]
      (by decide) (by decide)).1⟩,
   ⟨by decide, by decide,
    claim_C7_amended.2 initState "VEVENT"
      ["BEGIN:VEVENT", "BEGIN:VALARM", "END:VALARM", "END:VEVENT"]
      (by decide) (by decide)⟩⟩

/-- **C8**.  Malformed input tolerance: (a) on any input whose trailing
lines form a block opened by a `BEGIN` tag that is never closed before
end-of-input, the parser returns normally (it is a total function) and the
dangling block's content appears nowhere in the returned `Document` — the
result equals the document of the input without those trailing lines; and
(b) empty input yields a `Document` with all three sequences empty. -/
theorem claim_C8 :
    (∀ (content : String) (ls body : List String) (op bt : String),
        splitLines content = ls ++ op :: body →
        (parseLines ls).block_type = none →
        opensB op bt = true →
        neverCloses 1 body = true →
        parse_ical content = docOf (parseLines ls))
    ∧ parse_ical "" = { header_lines := [], timezones := [], events := [] } := by
  constructor
  · intro content ls body op bt hsplit hclean hop hnc
    have hfold : parseLines (ls ++ op :: body)
        = List.foldl stepLine (stepLine (parseLines ls) op) body := by
      unfold parseLines
      rw [List.foldl_append, List.foldl_cons]
    unfold parse_ical
    rw [hsplit, hfold]
    rw [stepLine_open hclean hop]
    rw [foldl_body_open body 1
      { parseLines ls with block_type := some bt, current_block := [op], nesting := 1 }
      bt hnc (by simp) (by simp)]
    rfl
  · rfl

theorem claim_C8_witness :
    (splitLines "X:1\nBEGIN:VEVENT\nSUMMARY:a"
        = ["X:1"] ++ "BEGIN:VEVENT" :: ["SUMMARY:a"]
      ∧ (parseLines ["X:1"]).block_type = none
      ∧ opensB "BEGIN:VEVENT" "VEVENT" = true
      ∧ neverCloses 1 ["SUMMARY:a"] = true
      ∧ parse_ical "X:1\nBEGIN:VEVENT\nSUMMARY:a" = docOf (parseLines ["X:1"]))
    ∧ parse_ical "" = { header_lines := [], timezones := [], events := [] } :=
  ⟨⟨by decide, by decide, by decide, by decide,
    claim_C8.1 "X:1\nBEGIN:VEVENT\nSUMMARY:a" ["X:1"] ["SUMMARY:a"]
      "BEGIN:VEVENT" "VEVENT" (by decide) (by decide) (by decide) (by decide)⟩,
   claim_C8.2⟩

/-! ## Serialization and re-splitting: `splitLines` after `build_ics` -/

theorem noNL_chars {l : String} (h : noNL l = true) :
    ∀ c ∈ l.data, c ≠ '\n' ∧ c ≠ '\r' := by
  intro c hc
  rw [noNL, List.all_eq_true] at h
  have := h c hc
  simp only [Bool.and_eq_true, bne_iff_ne, ne_eq] at this
  exact this

theorem splitLinesList_line (cs rest : List Char)
    (h : ∀ c ∈ cs, c ≠ '\n' ∧ c ≠ '\r') :
    splitLinesList (cs ++ '\n' :: rest) = cs :: splitLinesList rest := by
  induction cs with
  | nil =>
    simp [splitLinesList]
  | cons c cs ih =>
    have hc := h c (by simp)
    rw [List.cons_append]
    simp only [splitLinesList]
    rw [if_neg hc.1, if_neg hc.2]
    rw [ih (fun x hx => h x (by simp [hx]))]

theorem string_eta (s : String) : (⟨s.data⟩ : String) = s := rfl

theorem splitLines_joinNl : ∀ (ls : List String), (∀ l ∈ ls, noNL l = true) →
    splitLines (joinNl ls) = ls := by
  intro ls
  induction ls with
  | nil => intro _; rfl
  | cons l ls ih =>
    intro h
    have hdata : (joinNl (l :: ls)).data = l.data ++ '\n' :: (joinNl ls).data := by
      show (l ++ "\n" ++ joinNl ls).data = _
      simp [String.data_append]
    unfold splitLines
    rw [hdata, splitLinesList_line _ _ (noNL_chars (h l (by simp)))]
    rw [List.map_cons, string_eta]
    have := ih (fun x hx => h x (by simp [hx]))
    unfold splitLines at this
    rw [this]

/-! ## `njoin` algebra -/

theorem njoin_singleton (l : String) : njoin [l] = l := rfl

theorem njoin_cons (l : String) (ls : List String) (h : ls ≠ []) :
    njoin (l :: ls) = l ++ "\n" ++ njoin ls := by
  cases ls with
  | nil => exact absurd rfl h
  | cons m t => rfl

theorem njoin_append (a b : List String) (ha : a ≠ []) (hb : b ≠ []) :
    njoin (a ++ b) = njoin a ++ "\n" ++ njoin b := by
  induction a with
  | nil => exact absurd rfl ha
  | cons x xs ih =>
    cases xs with
    | nil =>
      rw [njoin_singleton, List.singleton_append, njoin_cons x b hb]
    | cons y ys =>
      rw [List.cons_append, njoin_cons x ((y :: ys) ++ b) (by simp),
        njoin_cons x (y :: ys) (by simp), ih (by simp)]
      simp [String.append_assoc]

theorem flatten_cons_ne {b : List String} {t : List (List String)} (hb : b ≠ []) :
    (b :: t).flatten ≠ [] := by
  simp only [List.flatten_cons, ne_eq, List.append_eq_nil]
  tauto

theorem njoin_flatten : ∀ (pls : List (List String)), (∀ bl ∈ pls, bl ≠ []) →
    njoin (pls.map njoin) = njoin pls.flatten := by
  intro pls
  induction pls with
  | nil => intro _; rfl
  | cons a rest ih =>
    intro h
    cases rest with
    | nil => simp [njoin_singleton]
    | cons b t =>
      have ha : a ≠ [] := h a (by simp)
      have hbt : ((b :: t) : List (List String)).flatten ≠ [] :=
        flatten_cons_ne (h b (by simp))
      rw [List.map_cons, njoin_cons _ _ (by simp), ih (fun x hx => h x (by simp [hx]))]
      rw [show ((a :: b :: t).flatten : List String) = a ++ (b :: t).flatten from
        List.flatten_cons ..]
      rw [njoin_append a ((b :: t).flatten) ha hbt]

theorem njoin_add_nl : ∀ (ls : List String), ls ≠ [] → njoin ls ++ "\n" = joinNl ls := by
  intro ls
  induction ls with
  | nil => intro h; exact absurd rfl h
  | cons x xs ih =>
    intro _
    cases xs with
    | nil =>
      show x ++ "\n" = x ++ "\n" ++ joinNl []
      rw [show joinNl [] = "" from rfl, String.append_empty]
    | cons y ys =>
      rw [njoin_cons x (y :: ys) (by simp)]
      show x ++ "\n" ++ njoin (y :: ys) ++ "\n" = x ++ "\n" ++ joinNl (y :: ys)
      rw [String.append_assoc, ih (by simp)]

/-! ## Filtered blocks are still well-formed blocks -/

theorem blockLines_nil_cons {l : String} {ls : List String}
    (h : blockLines (l :: ls) = []) :
    isCalTag l = true ∧ blockLines ls = [] := by
  unfold blockLines at h
  rw [List.filter_cons] at h
  split at h
  · simp at h
  · next hc =>
    refine ⟨by simpa [nonCalTag] using hc, h⟩

theorem allCalTag_closesWhole : ∀ (ls : List String) (j : Int),
    blockLines ls = [] → j ≠ 0 → closesWhole j ls ≠ true := by
  intro ls
  induction ls with
  | nil => intro j _ _ h; simp [closesWhole] at h
  | cons l ls ih =>
    intro j hbl hj h
    obtain ⟨hct, hbl'⟩ := blockLines_nil_cons hbl
    cases ls with
    | nil =>
      simp only [closesWhole, beq_iff_eq, lineDelta_calTag hct] at h
      omega
    | cons m rest =>
      rw [closesWhole_cons_cons, Bool.and_eq_true, bne_iff_ne,
        lineDelta_calTag hct] at h
      exact ih j hbl' hj (by
        have := h.2
        rw [show j + 0 = j from by omega] at this
        exact this)

theorem closesWhole_blockLines : ∀ (body : List String) (k : Int),
    closesWhole k body = true → k ≠ 0 → closesWhole k (blockLines body) = true := by
  intro body
  induction body with
  | nil => intro k h _; simp [closesWhole] at h
  | cons l ls ih =>
    intro k h hk
    cases ls with
    | nil =>
      simp only [closesWhole, beq_iff_eq] at h
      have hct : isCalTag l = false := by
        by_contra hc
        rw [Bool.not_eq_false] at hc
        rw [lineDelta_calTag hc] at h
        omega
      rw [blockLines_cons_nonCalTag _ hct]
      simp only [closesWhole, beq_iff_eq]
      exact h
    | cons m rest =>
      rw [closesWhole_cons_cons, Bool.and_eq_true, bne_iff_ne] at h
      by_cases hct : isCalTag l = true
      · rw [blockLines_cons_calTag _ hct]
        have hd := lineDelta_calTag hct
        rw [hd] at h
        exact ih k (by
          have := h.2
          rw [show k + 0 = k from by omega] at this
          exact this) hk
      · rw [Bool.not_eq_true] at hct
        rw [blockLines_cons_nonCalTag _ hct]
        rcases hbl : blockLines (m :: rest) with _ | ⟨b, bs⟩
        · exact absurd (ih _ h.2 h.1) (by
            rw [ih _ h.2 h.1]
            exact fun hcc => (allCalTag_closesWhole (m :: rest) _ hbl h.1) h.2)
        · rw [closesWhole_cons_cons, Bool.and_eq_true, bne_iff_ne]
          refine ⟨h.1, ?_⟩
          have := ih _ h.2 h.1
          rw [hbl] at this
          exact this

theorem goodBlockB_blockLines {bt : String} {block : List String}
    (h : goodBlockB bt block = true) :
    goodBlockB bt (blockLines block) = true := by
  cases block with
  | nil => simp [goodBlockB] at h
  | cons op body =>
    rw [goodBlockB, Bool.and_eq_true] at h
    have hop : isCalTag op = false := by
      have := h.1
      rw [opensB, Bool.and_eq_true, Bool.and_eq_true, Bool.not_eq_true'] at this
      exact this.1.1
    rw [blockLines_cons_nonCalTag _ hop, goodBlockB, Bool.and_eq_true]
    exact ⟨h.1, closesWhole_blockLines body 1 h.2 (by omega)⟩

theorem blockLines_idem (block : List String) :
    blockLines (blockLines block) = blockLines block := by
  unfold blockLines
  exact List.filter_eq_self.mpr (fun x hx => List.of_mem_filter hx)

theorem blockLines_good_ne {bt : String} {block : List String}
    (h : goodBlockB bt block = true) : blockLines block ≠ [] := by
  cases block with
  | nil => simp [goodBlockB] at h
  | cons op body =>
    rw [goodBlockB, Bool.and_eq_true] at h
    have hop : isCalTag op = false := by
      have := h.1
      rw [opensB, Bool.and_eq_true, Bool.and_eq_true, Bool.not_eq_true'] at this
      exact this.1.1
    rw [blockLines_cons_nonCalTag _ hop]
    simp

/-! ## Processing whole block lists from a clean state -/

theorem foldl_blockList_tz : ∀ (bls : List (List String)) (s : ParseState),
    s.block_type = none → s.current_block = [] → s.nesting = 0 →
    (∀ bl ∈ bls, goodBlockB "VTIMEZONE" bl = true) →
    List.foldl stepLine s bls.flatten
      = { s with timezones := s.timezones ++ bls.map (fun bl => njoin (blockLines bl)) } := by
  intro bls
  induction bls with
  | nil => intro s _ _ _ _; simp
  | cons bl rest ih =>
    intro s hbt hcb hns hall
    rw [List.flatten_cons, List.foldl_append]
    rw [foldl_goodBlock bl "VTIMEZONE" s (hall bl (by simp)) hbt]
    rw [closeBlock_fields]
    rw [ih _ (by rfl) (by rfl) (by rfl) (fun x hx => hall x (by simp [hx]))]
    simp [hcb, hns, hbt]

theorem foldl_blockList_ev : ∀ (bls : List (List String)) (s : ParseState),
    s.block_type = none → s.current_block = [] → s.nesting = 0 →
    (∀ bl ∈ bls, goodBlockB "VEVENT" bl = true) →
    List.foldl stepLine s bls.flatten
      = { s with events := s.events ++ bls.map (fun bl => mkEvent (njoin (blockLines bl))) } := by
  intro bls
  induction bls with
  | nil => intro s _ _ _ _; simp
  | cons bl rest ih =>
    intro s hbt hcb hns hall
    rw [List.flatten_cons, List.foldl_append]
    rw [foldl_goodBlock bl "VEVENT" s (hall bl (by simp)) hbt]
    rw [closeBlock_fields]
    rw [ih _ (by rfl) (by rfl) (by rfl) (fun x hx => hall x (by simp [hx]))]
    simp [hcb, hns, hbt]

/-! ## Parsing a rebuilt document -/

theorem map_njoin_singleton (hdr : List String) :
    hdr.map (fun l => njoin [l]) = hdr :=
  List.map_congr_left (fun a _ => rfl) |>.trans (List.map_id hdr)

theorem flatten_singletons (hdr : List String) :
    (hdr.map (fun l => [l])).flatten = hdr := by
  induction hdr with
  | nil => rfl
  | cons l ls ih => simp [ih]

/-- The serialized document is the newline-terminated concatenation of all
its individual lines. -/
theorem build_as_joinNl (hdr : List String) (tzB evB : List (List String))
    (htne : ∀ bl ∈ tzB, bl ≠ []) (hene : ∀ bl ∈ evB, bl ≠ []) :
    build_ics hdr (tzB.map njoin) (evB.map njoin)
      = joinNl (["BEGIN:VCALENDAR"] ++ hdr ++ tzB.flatten ++ evB.flatten
          ++ ["END:VCALENDAR"]) := by
  have h1 : ["BEGIN:VCALENDAR"] ++ hdr ++ tzB.map njoin ++ evB.map njoin
        ++ ["END:VCALENDAR"]
      = ([["BEGIN:VCALENDAR"]] ++ hdr.map (fun l => [l]) ++ tzB ++ evB
          ++ [["END:VCALENDAR"]]).map njoin := by
    simp only [List.map_append, List.map_map, List.map_cons, List.map_nil]
    rw [show (List.map (njoin ∘ fun l => [l]) hdr) = hdr.map (fun l => njoin [l]) from rfl]
    rw [map_njoin_singleton]
    rfl
  have hflat : ([["BEGIN:VCALENDAR"]] ++ hdr.map (fun l => [l]) ++ tzB ++ evB
        ++ [["END:VCALENDAR"]]).flatten
      = ["BEGIN:VCALENDAR"] ++ hdr ++ tzB.flatten ++ evB.flatten
        ++ ["END:VCALENDAR"] := by
    simp [List.flatten_append, flatten_singletons]
  have hne : ∀ bl ∈ [["BEGIN:VCALENDAR"]] ++ hdr.map (fun l => [l]) ++ tzB ++ evB
      ++ [["END:VCALENDAR"]], bl ≠ [] := by
    intro bl hbl
    simp only [List.mem_append, List.mem_singleton, List.mem_map] at hbl
    rcases hbl with ((((hbl | hbl) | hbl) | hbl) | hbl)
    · subst hbl; simp
    · obtain ⟨x, _, hx⟩ := hbl; subst hx; simp
    · exact htne bl hbl
    · exact hene bl hbl
    · subst hbl; simp
  unfold build_ics
  rw [h1, njoin_flatten _ hne, njoin_add_nl _ (by rw [hflat]; simp), hflat]

theorem map_mkBlockText_idem (bls : List (List String)) :
    (bls.map blockLines).map (fun bl => njoin (blockLines bl))
      = bls.map mkBlockText := by
  rw [List.map_map]
  exact List.map_congr_left (fun bl _ => by
    show njoin (blockLines (blockLines bl)) = mkBlockText bl
    rw [blockLines_idem]
    rfl)

theorem map_mkEventFromBlock_idem (bls : List (List String)) :
    (bls.map blockLines).map (fun bl => mkEvent (njoin (blockLines bl)))
      = bls.map mkEventFromBlock := by
  rw [List.map_map]
  exact List.map_congr_left (fun bl _ => by
    show mkEvent (njoin (blockLines (blockLines bl))) = mkEventFromBlock bl
    rw [blockLines_idem]
    rfl)

/-- Round-trip: parsing a document built from well-formed header lines,
timezone blocks and event blocks recovers exactly those components. -/
theorem parse_build (hdr : List String) (tzBlocks evBlocks : List (List String))
    (hH : ∀ l ∈ hdr, headerLineB l = true)
    (hHn : ∀ l ∈ hdr, noNL l = true)
    (htz : ∀ bl ∈ tzBlocks, goodBlockB "VTIMEZONE" bl = true)
    (htzn : ∀ bl ∈ tzBlocks, ∀ x ∈ bl, noNL x = true)
    (hev : ∀ bl ∈ evBlocks, goodBlockB "VEVENT" bl = true)
    (hevn : ∀ bl ∈ evBlocks, ∀ x ∈ bl, noNL x = true) :
    parse_ical (build_ics hdr (tzBlocks.map mkBlockText) (evBlocks.map mkBlockText))
      = { header_lines := hdr,
          timezones := tzBlocks.map mkBlockText,
          events := evBlocks.map mkEventFromBlock } := by
  have hmtz : tzBlocks.map mkBlockText = (tzBlocks.map blockLines).map njoin := by
    rw [List.map_map]
    exact List.map_congr_left (fun bl _ => rfl)
  have hmev : evBlocks.map mkBlockText = (evBlocks.map blockLines).map njoin := by
    rw [List.map_map]
    exact List.map_congr_left (fun bl _ => rfl)
  have hbuild := build_as_joinNl hdr (tzBlocks.map blockLines) (evBlocks.map blockLines)
    (by
      intro bl hbl
      rw [List.mem_map] at hbl
      obtain ⟨b, hb, hbeq⟩ := hbl
      subst hbeq
      exact blockLines_good_ne (htz b hb))
    (by
      intro bl hbl
      rw [List.mem_map] at hbl
      obtain ⟨b, hb, hbeq⟩ := hbl
      subst hbeq
      exact blockLines_good_ne (hev b hb))
  have hnoNL : ∀ l ∈ ["BEGIN:VCALENDAR"] ++ hdr ++ (tzBlocks.map blockLines).flatten
      ++ (evBlocks.map blockLines).flatten ++ ["END:VCALENDAR"], noNL l = true := by
    intro l hl
    simp only [List.mem_append, List.mem_singleton, List.mem_flatten,
      List.mem_map] at hl
    rcases hl with ((((hl | hl) | hl) | hl) | hl)
    · subst hl; decide
    · exact hHn l hl
    · obtain ⟨bl, ⟨b, hb, hbeq⟩, hlbl⟩ := hl
      subst hbeq
      exact htzn b hb l ((List.filter_sublist _).mem hlbl)
    · obtain ⟨bl, ⟨b, hb, hbeq⟩, hlbl⟩ := hl
      subst hbeq
      exact hevn b hb l ((List.filter_sublist _).mem hlbl)
    · subst hl; decide
  rw [hmtz, hmev, hbuild]
  unfold parse_ical
  rw [splitLines_joinNl _ hnoNL]
  unfold parseLines
  rw [List.foldl_append, List.foldl_append, List.foldl_append, List.foldl_append]
  rw [show List.foldl stepLine initState ["BEGIN:VCALENDAR"] = initState from by
    rw [List.foldl_cons, stepLine_calTag (by decide)]
    rfl]
  rw [foldl_headers hdr initState hH rfl]
  rw [foldl_blockList_tz (tzBlocks.map blockLines) _ rfl rfl rfl (by
    intro bl hbl
    rw [List.mem_map] at hbl
    obtain ⟨b, hb, hbeq⟩ := hbl
    subst hbeq
    exact goodBlockB_blockLines (htz b hb))]
  rw [foldl_blockList_ev (evBlocks.map blockLines) _ rfl rfl rfl (by
    intro bl hbl
    rw [List.mem_map] at hbl
    obtain ⟨b, hb, hbeq⟩ := hbl
    subst hbeq
    exact goodBlockB_blockLines (hev b hb))]
  rw [show ∀ s : ParseState, List.foldl stepLine s ["END:VCALENDAR"]
      = s from fun s => by
    rw [List.foldl_cons, stepLine_calTag (by decide)]
    rfl]
  unfold docOf initState
  simp only [List.nil_append]
  rw [map_mkBlockText_idem, map_mkEventFromBlock_idem, ← hmtz]

/-! ## Lines produced by `splitLines` contain no line terminator -/

theorem splitLinesList_noNL : ∀ (cs : List Char), ∀ l ∈ splitLinesList cs,
    ∀ c ∈ l, c ≠ '\n' ∧ c ≠ '\r' := by
  intro cs
  induction cs with
  | nil => intro l hl; simp [splitLinesList] at hl
  | cons c cs ih =>
    intro l hl x hx
    simp only [splitLinesList] at hl
    split at hl
    · rcases List.mem_cons.mp hl with hl | hl
      · subst hl; simp at hx
      · exact ih l hl x hx
    · split at hl
      · split at hl
        · exact ih l hl x hx
        · rcases List.mem_cons.mp hl with hl | hl
          · subst hl; simp at hx
          · exact ih l hl x hx
      · next hc1 hc2 =>
        rcases hsp : splitLinesList cs with _ | ⟨l0, ls⟩ <;> rw [hsp] at hl
        · simp only [List.mem_singleton] at hl
          subst hl
          simp only [List.mem_singleton] at hx
          subst hx
          exact ⟨hc1, hc2⟩
        · rcases List.mem_cons.mp hl with hl | hl
          · subst hl
            rcases List.mem_cons.mp hx with hx | hx
            · subst hx
              exact ⟨hc1, hc2⟩
            · exact ih l0 (by rw [hsp]; simp) x hx
          · exact ih l (by rw [hsp]; simp [hl]) x hx

theorem noNL_splitLines (content : String) :
    ∀ l ∈ splitLines content, noNL l = true := by
  intro l hl
  unfold splitLines at hl
  rw [List.mem_map] at hl
  obtain ⟨cl, hcl, hleq⟩ := hl
  subst hleq
  rw [noNL, List.all_eq_true]
  intro c hc
  have := splitLinesList_noNL content.data cl hcl c hc
  simp only [Bool.and_eq_true, bne_iff_ne, ne_eq]
  exact this

/-- Turn a per-element existence of source blocks into a list of blocks. -/
theorem exists_blocks {Q : List String → Prop} : ∀ (ts : List String),
    (∀ t ∈ ts, ∃ block, Q block ∧ t = mkBlockText block) →
    ∃ bls : List (List String), ts = bls.map mkBlockText ∧ ∀ bl ∈ bls, Q bl := by
  intro ts
  induction ts with
  | nil => intro _; exact ⟨[], rfl, by simp⟩
  | cons t rest ih =>
    intro h
    obtain ⟨b, hQ, hteq⟩ := h t (by simp)
    obtain ⟨bls, hrest, hall⟩ := ih (fun x hx => h x (by simp [hx]))
    refine ⟨b :: bls, by rw [List.map_cons, ← hteq, ← hrest], ?_⟩
    intro bl hbl
    rcases List.mem_cons.mp hbl with hbl | hbl
    · subst hbl; exact hQ
    · exact hall bl hbl

/-- **C5**.  Round-trip block integrity: for every event extracted from an
input document, building a standalone document from the input's header
lines, timezones and that event's text, and re-parsing it, yields exactly
that one event record back — in particular the identical
summary/uid/dtstart triple. -/
theorem claim_C5 (content : String) (e : Event)
    (he : e ∈ (parse_ical content).events) :
    (parse_ical (build_ics (parse_ical content).header_lines
        (parse_ical content).timezones [e.text])).events = [e] := by
  obtain ⟨H, T, E, O⟩ := stateInv_parseLines (splitLines content)
  have hno := noNL_splitLines content
  obtain ⟨pre, block, post, hsp, hgb, heq⟩ := E e he
  have hmemBlock : ∀ x ∈ block, x ∈ splitLines content := by
    intro x hx
    rw [hsp]
    simp [hx]
  obtain ⟨tzBlocks, htzEq, htzAll⟩ := exists_blocks
    (Q := fun bl => goodBlockB "VTIMEZONE" bl = true
      ∧ ∀ x ∈ bl, x ∈ splitLines content)
    (parse_ical content).timezones
    (by
      intro t ht
      obtain ⟨pre', block', post', hsp', hgb', hteq'⟩ := T t ht
      refine ⟨block', ⟨hgb', ?_⟩, hteq'⟩
      intro x hx
      rw [hsp']
      simp [hx])
  have hetext : e.text = mkBlockText block := by
    rw [heq]
    rfl
  have hres := parse_build (parse_ical content).header_lines tzBlocks [block]
    (fun l hl => (H l hl).1)
    (fun l hl => hno l (H l hl).2)
    (fun bl hbl => (htzAll bl hbl).1)
    (fun bl hbl x hx => hno x ((htzAll bl hbl).2 x hx))
    (by
      intro bl hbl
      rw [List.mem_singleton] at hbl
      subst hbl
      exact hgb)
    (by
      intro bl hbl x hx
      rw [List.mem_singleton] at hbl
      subst hbl
      exact hno x (hmemBlock x hx))
  rw [htzEq, show ([e.text] : List String) = [block].map mkBlockText from by
    rw [hetext]; rfl]
  rw [hres]
  simp only [List.map_cons, List.map_nil]
  rw [← heq]

theorem claim_C5_witness :
    ({ text := "BEGIN:VEVENT\nSUMMARY:a\nUID:u1\nDTSTART:d1\nEND:VEVENT",
       summary := "a", uid := "u1", dtstart := "d1" } : Event)
      ∈ (parse_ical "BEGIN:VCALENDAR\nVERSION:2.0\nBEGIN:VTIMEZONE\nTZID:UTC\nEND:VTIMEZONE\nBEGIN:VEVENT\nSUMMARY:a\nUID:u1\nDTSTART:d1\nEND:VEVENT\nEND:VCALENDAR\n").events
    ∧ (parse_ical (build_ics
        (parse_ical "BEGIN:VCALENDAR\nVERSION:2.0\nBEGIN:VTIMEZONE\nTZID:UTC\nEND:VTIMEZONE\nBEGIN:VEVENT\nSUMMARY:a\nUID:u1\nDTSTART:d1\nEND:VEVENT\nEND:VCALENDAR\n").header_lines
        (parse_ical "BEGIN:VCALENDAR\nVERSION:2.0\nBEGIN:VTIMEZONE\nTZID:UTC\nEND:VTIMEZONE\nBEGIN:VEVENT\nSUMMARY:a\nUID:u1\nDTSTART:d1\nEND:VEVENT\nEND:VCALENDAR\n").timezones
        ["BEGIN:VEVENT\nSUMMARY:a\nUID:u1\nDTSTART:d1\nEND:VEVENT"])).events
      = [{ text := "BEGIN:VEVENT\nSUMMARY:a\nUID:u1\nDTSTART:d1\nEND:VEVENT",
           summary := "a", uid := "u1", dtstart := "d1" }] :=
  ⟨by decide,
    claim_C5 "BEGIN:VCALENDAR\nVERSION:2.0\nBEGIN:VTIMEZONE\nTZID:UTC\nEND:VTIMEZONE\nBEGIN:VEVENT\nSUMMARY:a\nUID:u1\nDTSTART:d1\nEND:VEVENT\nEND:VCALENDAR\n"
      { text := "BEGIN:VEVENT\nSUMMARY:a\nUID:u1\nDTSTART:d1\nEND:VEVENT",
        summary := "a", uid := "u1", dtstart := "d1" }
      (by decide)⟩

end SplitIcal
